import Mathlib

/-!
Shallow embedding of the stateful LSTM link
(`chainer/links/connection/lstm.py`, class `LSTM`) together with the
external collaborators it calls (affine projections, the LSTM
gate-activation primitive, and the tensor operations `zeros`, `concat`
and `split_axis`).  The collaborators are not part of this repository;
they are modelled from the specification's collaborator contracts.

Tensors are modelled as a list of rows of scalars together with a dtype
tag and a device tag.  Scalars are an arbitrary commutative ring; the
sigmoid and tanh nonlinearities of the gate primitive are abstract
parameters `sig` and `th`.
-/

set_option autoImplicit false
set_option linter.unusedSectionVars false

namespace ChainerLSTM

/-- A tensor: row-major data plus a dtype tag and a device tag. -/
structure Tensor (α : Type) where
  data : List (List α)
  dty : Nat
  dev : Nat
deriving DecidableEq, Repr

variable {α : Type} [CommRing α] [DecidableEq α]

/-- Number of rows (the leading/batch dimension). -/
def Tensor.rows (t : Tensor α) : Nat := t.data.length

/-- Width of the first row (numpy arrays are rectangular, so for
well-formed tensors this is the column count). -/
def headWidth (m : List (List α)) : Nat := (m.head?.map List.length).getD 0

/-- Column count of a tensor. -/
def Tensor.cols (t : Tensor α) : Nat := headWidth t.data

/-- Dot product of two equally long vectors. -/
def dot (u v : List α) : α := (List.zipWith (fun a b => a * b) u v).sum

/-- Modelled from the spec: the external affine projection
(`chainer.links.Linear`): weight matrix `W` of shape `(out, in)` and an
optional bias of length `out` (`none` models `nobias=True`). -/
structure Linear (α : Type) where
  W : List (List α)
  b : Option (List α)
  inSize : Nat
deriving DecidableEq, Repr

/-- One output row of an affine projection: `y = W x + b`. -/
def linRow (lin : Linear α) (r : List α) : List α :=
  match lin.b with
  | none => lin.W.map (fun w => dot w r)
  | some bv => List.zipWith (fun w bj => dot w r + bj) lin.W bv

/-- Modelled from the spec: applying an affine projection.  Fails on a
feature-dimension mismatch or when the input lives on a different
device than the projection's parameters. -/
def applyLin (dev : Nat) (lin : Linear α) (x : Tensor α) : Except String (Tensor α) :=
  if x.dev = dev ∧ ∀ r ∈ x.data, r.length = lin.inSize then
    .ok ⟨x.data.map (linRow lin), x.dty, x.dev⟩
  else .error "linear: shape or device mismatch"

/-- Modelled from the spec: elementwise tensor addition (the `+=` on the
gate pre-activation).  Fails unless the two shapes coincide. -/
def addT (a b : Tensor α) : Except String (Tensor α) :=
  if a.dev = b.dev ∧ a.data.map List.length = b.data.map List.length then
    .ok ⟨List.zipWith (List.zipWith (fun p q => p + q)) a.data b.data, a.dty, a.dev⟩
  else .error "add: shape mismatch"

/-- First `n` rows of a tensor (first half of `split_axis` at `[n]`). -/
def takeRows (n : Nat) (t : Tensor α) : Tensor α := ⟨t.data.take n, t.dty, t.dev⟩

/-- Rows from `n` on (second half of `split_axis` at `[n]`). -/
def dropRows (n : Nat) (t : Tensor α) : Tensor α := ⟨t.data.drop n, t.dty, t.dev⟩

/-- Modelled from the spec: concatenation of two tensors along the batch
axis.  Fails unless all rows share one width and the devices agree. -/
def concatT (a b : Tensor α) : Except String (Tensor α) :=
  if a.dev = b.dev ∧ ∀ r ∈ a.data ++ b.data, r.length = headWidth (a.data ++ b.data) then
    .ok ⟨a.data ++ b.data, a.dty, a.dev⟩
  else .error "concat: shape mismatch"

/-- One row of the LSTM gate computation: the pre-activation row is
split into input, forget, output and candidate chunks of width `S`;
`newCell = sig(forget) * cell + sig(input) * th(candidate)` and
`newOutput = sig(output) * th(newCell)`. -/
def gateRow (sig th : α → α) (S : Nat) (crow xrow : List α) : List α × List α :=
  let i := xrow.take S
  let f := (xrow.drop S).take S
  let o := (xrow.drop (2 * S)).take S
  let cand := xrow.drop (3 * S)
  let c2 := List.zipWith (fun p q => p + q)
      (List.zipWith (fun g cv => sig g * cv) f crow)
      (List.zipWith (fun g av => sig g * th av) i cand)
  (c2, List.zipWith (fun g cv => sig g * th cv) o c2)

/-- Modelled from the spec: the external LSTM gate-activation primitive
(`chainer.functions.activation.lstm.lstm`), which is not part of this
repository.  Given the previous cell `(B, S)` and the pre-activation
`(b, 4S)` with `b ≤ B` it combines the first `b` rows of the cell with
the gates (the spec's shrinking-batch property: finished rows of the
cell are not fed through the gate); it fails naturally on any shape or
device mismatch. -/
def lstmGate (sig th : α → α) (c x : Tensor α) : Except String (Tensor α × Tensor α) :=
  if x.data.length ≤ c.data.length ∧ c.dev = x.dev ∧
     (∀ r ∈ c.data, r.length = c.cols) ∧ (∀ r ∈ x.data, r.length = 4 * c.cols) then
    let pairs := List.zipWith (gateRow sig th c.cols) (c.data.take x.data.length) x.data
    .ok (⟨pairs.map Prod.fst, c.dty, c.dev⟩, ⟨pairs.map Prod.snd, c.dty, c.dev⟩)
  else .error "lstm: shape mismatch"

/-- The stateful LSTM link: upward and lateral projections, the output
size, and the device its parameters live on (`self.xp`). -/
structure LSTM (α : Type) where
  upward : Linear α
  lateral : Linear α
  state_size : Nat
  dev : Nat
deriving DecidableEq, Repr

/-- The mutable state of the link: cell state `c` and previous output
`h`, each nullable. -/
structure LSTMState (α : Type) where
  c : Option (Tensor α)
  h : Option (Tensor α)
deriving DecidableEq, Repr

/-- `reset_state`: sets both attributes to `None` whatever they were. -/
def resetStateOp (_s : LSTMState α) : LSTMState α := ⟨none, none⟩

/-- The state right after construction (the constructor calls
`reset_state`). -/
def initialState : LSTMState α := ⟨none, none⟩

/-- `LSTM.__init__(in_size, out_size)` with externally supplied weight
values: upward is `Linear(in_size, 4*out_size)` with bias, lateral is
`Linear(out_size, 4*out_size, nobias=True)`; `state_size = out_size`
and the state is reset. -/
def createLSTM (in_size out_size : Nat) (Wu : List (List α)) (bu : List α)
    (Wl : List (List α)) (dev : Nat) : LSTM α × LSTMState α :=
  (⟨⟨Wu, some bu, in_size⟩, ⟨Wl, none, out_size⟩, out_size, dev⟩, ⟨none, none⟩)

/-- The zero cell state allocated when `self.c is None`:
`xp.zeros((len(x.data), self.state_size), dtype=x.data.dtype)` — shape
`(batch, state_size)`, dtype of `x`, on the link's device (`self.xp`). -/
def initC (l : LSTM α) (x : Tensor α) : Tensor α :=
  ⟨List.replicate x.data.length (List.replicate l.state_size 0), x.dty, l.dev⟩

/-- The cell tensor handed to the gate primitive: the stored cell if
non-null, else the freshly allocated zeros. -/
def c0val (l : LSTM α) (s : LSTMState α) (x : Tensor α) : Tensor α :=
  match s.c with
  | none => initC l x
  | some cv => cv

/-- Result of one `__call__`: either a committed new state together with
the returned output, or an error together with the state as it stands
at the failure point (Python mutations before the raise persist). -/
inductive StepResult (α : Type) where
  | ok (s : LSTMState α) (out : Tensor α)
  | err (s : LSTMState α) (msg : String)
deriving DecidableEq, Repr

/-- Adding the lateral projection of the whole previous output to the
pre-activation (the `else` branch of the batch policy, shared by the
equal-batch and growing-batch cases). -/
def lateralFull (l : LSTM α) (hv u : Tensor α) :
    Except String (Tensor α × Option (Tensor α)) :=
  match applyLin l.dev l.lateral hv with
  | .error e => .error e
  | .ok latv =>
    match addT u latv with
    | .error e => .error e
    | .ok t => .ok (t, none)

/-- The lateral-contribution stage (lines 74–80 of the source): if `h`
is non-null and strictly larger than `batch`, split it, add the lateral
projection of the head and carry the tail; otherwise add the lateral
projection of all of `h`. -/
def lateralStage (l : LSTM α) (hOpt : Option (Tensor α)) (u : Tensor α) (b : Nat) :
    Except String (Tensor α × Option (Tensor α)) :=
  match hOpt with
  | none => .ok (u, none)
  | some hPrev =>
    if b < hPrev.data.length then
      match applyLin l.dev l.lateral (takeRows b hPrev) with
      | .error e => .error e
      | .ok latv =>
        match addT u latv with
        | .error e => .error e
        | .ok t => .ok (t, some (dropRows b hPrev))
    else lateralFull l hPrev u

/-- The tail of `__call__` after the pre-activation is complete: the
cell is initialized if null (a mutation that persists on later
failure), the gate primitive runs, the carried tail is concatenated
back, and the new state is committed. -/
def afterLateral (sig th : α → α) (l : LSTM α) (s : LSTMState α) (x : Tensor α)
    (li : Tensor α) (hRest : Option (Tensor α)) : StepResult α :=
  match lstmGate sig th (c0val l s x) li with
  | .error e => .err ⟨some (c0val l s x), s.h⟩ e
  | .ok (c1, h1) =>
    match hRest with
    | none => .ok ⟨some c1, some h1⟩ h1
    | some hr =>
      match concatT h1 hr with
      | .error e => .err ⟨some c1, s.h⟩ e
      | .ok hFull => .ok ⟨some c1, some hFull⟩ hFull

/-- `LSTM.__call__(x)` (lines 62–90 of the source): upward projection,
lateral stage with the batch-shrinking policy, zero-initialization of a
null cell, the gate primitive, and re-concatenation of the carried
rows. -/
def step (sig th : α → α) (l : LSTM α) (s : LSTMState α) (x : Tensor α) : StepResult α :=
  match applyLin l.dev l.upward x with
  | .error e => .err s e
  | .ok u =>
    match lateralStage l s.h u x.data.length with
    | .error e => .err s e
    | .ok p => afterLateral sig th l s x p.1 p.2

/-- Driving the cell over a list of input batches, aborting at the
first failure (a raised exception stops the caller's loop). -/
def run (sig th : α → α) (l : LSTM α) : LSTMState α → List (Tensor α) →
    LSTMState α × List (Tensor α)
  | s, [] => (s, [])
  | s, x :: xs =>
    match step sig th l s x with
    | .ok s1 out => ((run sig th l s1 xs).1, out :: (run sig th l s1 xs).2)
    | .err s1 _ => (s1, [])

/-- Well-formedness of the link's parameters as `__init__` creates
them: the upward bias exists with length `4 * out_size`, both weight
matrices have `4 * out_size` rows, and the lateral projection has no
bias. -/
def LSTM.Wf (l : LSTM α) : Prop :=
  l.upward.b.map List.length = some (4 * l.state_size) ∧
  l.upward.W.length = 4 * l.state_size ∧
  l.lateral.b = none ∧
  l.lateral.W.length = 4 * l.state_size

/-- Well-formedness of a stored state: any stored tensor is rectangular
with width `out_size` (true of every state an actual run produces,
since numpy arrays are rectangular). -/
def StateWf (l : LSTM α) (s : LSTMState α) : Prop :=
  (∀ t, s.c = some t → ∀ r ∈ t.data, r.length = l.state_size) ∧
  (∀ t, s.h = some t → ∀ r ∈ t.data, r.length = l.state_size)

/-- States reachable through any sequence of constructions, resets and
(possibly failing) step calls. -/
inductive Reachable (sig th : α → α) (l : LSTM α) : LSTMState α → Prop where
  | init : Reachable sig th l initialState
  | reset {s : LSTMState α} : Reachable sig th l s → Reachable sig th l (resetStateOp s)
  | stepOk {s s' : LSTMState α} {x out : Tensor α} :
      Reachable sig th l s → step sig th l s x = .ok s' out → Reachable sig th l s'
  | stepErr {s s' : LSTMState α} {x : Tensor α} {e : String} :
      Reachable sig th l s → step sig th l s x = .err s' e → Reachable sig th l s'

/-- A concrete link over the integers used to evaluate the theorems on
explicit inputs: `in_size = out_size = 1`, all weights 1, zero bias. -/
def demoLink : LSTM Int :=
  ⟨⟨[[1], [1], [1], [1]], some [0, 0, 0, 0], 1⟩, ⟨[[1], [1], [1], [1]], none, 1⟩, 1, 0⟩

/-- Identity stand-in for the abstract nonlinearities on the demo link. -/
def demoId : Int → Int := fun z => z

/-- A batch-2 input for the demo link. -/
def demoX1 : Tensor Int := ⟨[[1], [2]], 0, 0⟩

/-- A batch-1 input for the demo link. -/
def demoX2 : Tensor Int := ⟨[[3]], 0, 0⟩

/-- A batch-3 input for the demo link. -/
def demoX3 : Tensor Int := ⟨[[1], [2], [3]], 0, 0⟩

/-- An input whose feature dimension does not match `in_size`. -/
def demoBadX : Tensor Int := ⟨[[1, 2]], 0, 0⟩

/-- The demo state after one batch-2 step from the fresh state. -/
def demoS1 : LSTMState Int := ⟨some ⟨[[1], [4]], 0, 0⟩, some ⟨[[1], [8]], 0, 0⟩⟩

/-- The demo state after one batch-1 step from the fresh state. -/
def demoT1 : LSTMState Int := ⟨some ⟨[[9]], 0, 0⟩, some ⟨[[27]], 0, 0⟩⟩

/-- Cell tensor stored in `demoS1`. -/
def demoCell1 : Tensor Int := ⟨[[1], [4]], 0, 0⟩

/-- Output tensor stored in `demoS1`. -/
def demoOut1 : Tensor Int := ⟨[[1], [8]], 0, 0⟩

/-- The demo state after the batch-2 step and then a batch-1 step. -/
def demoS2 : LSTMState Int := ⟨some ⟨[[20]], 0, 0⟩, some ⟨[[80], [8]], 0, 0⟩⟩

/-- Output of the batch-1 step from `demoS1`. -/
def demoOut2 : Tensor Int := ⟨[[80], [8]], 0, 0⟩

/-- The demo state after two batch-2 steps. -/
def demoS1e : LSTMState Int := ⟨some ⟨[[6], [140]], 0, 0⟩, some ⟨[[12], [1400]], 0, 0⟩⟩

/-- Output of the second batch-2 step from `demoS1`. -/
def demoOut1e : Tensor Int := ⟨[[12], [1400]], 0, 0⟩

/-- Output tensor stored in `demoT1`. -/
def demoTOut : Tensor Int := ⟨[[27]], 0, 0⟩

/-! ### Supporting lemmas about the collaborator operations -/

theorem mem_zipWith {β γ δ : Type} {f : β → γ → δ} :
    ∀ {A : List β} {B : List γ} {p : δ}, p ∈ List.zipWith f A B →
      ∃ a ∈ A, ∃ b ∈ B, p = f a b
  | [], _, _, hp => by simp at hp
  | _ :: _, [], _, hp => by simp at hp
  | a :: A, b :: B, p, hp => by
    rcases List.mem_cons.mp hp with hh | hh
    · exact ⟨a, List.mem_cons_self a A, b, List.mem_cons_self b B, hh⟩
    · rcases mem_zipWith hh with ⟨a1, ha, b1, hb, he⟩
      exact ⟨a1, List.mem_cons_of_mem _ ha, b1, List.mem_cons_of_mem _ hb, he⟩

theorem zipWith_zipWith_map_length {f : α → α → α} :
    ∀ (A B : List (List α)), A.map List.length = B.map List.length →
      (List.zipWith (List.zipWith f) A B).map List.length = A.map List.length
  | [], _, _ => by simp
  | _ :: _, [], h => by simp at h
  | a :: A, b :: B, h => by
    simp only [List.map_cons, List.cons.injEq] at h
    simp only [List.zipWith, List.map_cons, List.length_zipWith, h.1, min_self,
      List.cons.injEq, true_and]
    exact zipWith_zipWith_map_length A B h.2

theorem widths_of_map_length_eq {A B : List (List α)} {n : Nat}
    (h : A.map List.length = B.map List.length) (hB : ∀ r ∈ B, r.length = n) :
    ∀ r ∈ A, r.length = n := by
  intro r hr
  have hm : r.length ∈ B.map List.length := h ▸ List.mem_map_of_mem List.length hr
  rcases List.mem_map.mp hm with ⟨r2, hr2, he⟩
  rw [← he]; exact hB r2 hr2

theorem length_of_map_length_eq {A B : List (List α)}
    (h : A.map List.length = B.map List.length) : A.length = B.length := by
  have := congrArg List.length h
  simpa using this

theorem applyLin_ok {dev : Nat} {lin : Linear α} {x y : Tensor α}
    (h : applyLin dev lin x = .ok y) :
    x.dev = dev ∧ (∀ r ∈ x.data, r.length = lin.inSize) ∧
      y = ⟨x.data.map (linRow lin), x.dty, x.dev⟩ := by
  unfold applyLin at h
  split at h
  · rename_i hcond
    refine ⟨hcond.1, hcond.2, ?_⟩
    injection h with h
    exact h.symm
  · simp at h

theorem applyLin_ok_of {dev : Nat} {lin : Linear α} {x : Tensor α}
    (h1 : x.dev = dev) (h2 : ∀ r ∈ x.data, r.length = lin.inSize) :
    applyLin dev lin x = .ok ⟨x.data.map (linRow lin), x.dty, x.dev⟩ := by
  unfold applyLin
  rw [if_pos ⟨h1, h2⟩]

theorem addT_ok {a b t : Tensor α} (h : addT a b = .ok t) :
    a.dev = b.dev ∧ a.data.map List.length = b.data.map List.length ∧
      t = ⟨List.zipWith (List.zipWith (fun p q => p + q)) a.data b.data, a.dty, a.dev⟩ := by
  unfold addT at h
  split at h
  · rename_i hcond
    refine ⟨hcond.1, hcond.2, ?_⟩
    injection h with h
    exact h.symm
  · simp at h

theorem addT_ok_of {a b : Tensor α} (h1 : a.dev = b.dev)
    (h2 : a.data.map List.length = b.data.map List.length) :
    addT a b = .ok ⟨List.zipWith (List.zipWith (fun p q => p + q)) a.data b.data, a.dty, a.dev⟩ := by
  unfold addT
  rw [if_pos ⟨h1, h2⟩]

theorem linRow_length_wf_upward {l : LSTM α} (hWf : l.Wf) (r : List α) :
    (linRow l.upward r).length = 4 * l.state_size := by
  rcases Option.map_eq_some'.mp hWf.1 with ⟨bv, hbv, hlen⟩
  simp [linRow, hbv, List.length_zipWith, hWf.2.1, hlen]

theorem linRow_length_wf_lateral {l : LSTM α} (hWf : l.Wf) (r : List α) :
    (linRow l.lateral r).length = 4 * l.state_size := by
  simp [linRow, hWf.2.2.1, hWf.2.2.2]

theorem gateRow_lengths {sig th : α → α} {S : Nat} {crow xrow : List α}
    (hc : crow.length = S) (hx : xrow.length = 4 * S) :
    (gateRow sig th S crow xrow).1.length = S ∧ (gateRow sig th S crow xrow).2.length = S := by
  have h1 : (gateRow sig th S crow xrow).1.length = S := by
    simp only [gateRow, List.length_zipWith, List.length_take, List.length_drop, hc, hx]
    omega
  refine ⟨h1, ?_⟩
  simp only [gateRow] at h1 ⊢
  simp only [List.length_zipWith, List.length_take, List.length_drop, hc, hx] at h1 ⊢
  omega

theorem lstmGate_ok {sig th : α → α} {c x : Tensor α} {p : Tensor α × Tensor α}
    (h : lstmGate sig th c x = .ok p) :
    x.data.length ≤ c.data.length ∧ c.dev = x.dev ∧
      (∀ r ∈ c.data, r.length = c.cols) ∧ (∀ r ∈ x.data, r.length = 4 * c.cols) ∧
      p = (⟨(List.zipWith (gateRow sig th c.cols) (c.data.take x.data.length) x.data).map
              Prod.fst, c.dty, c.dev⟩,
           ⟨(List.zipWith (gateRow sig th c.cols) (c.data.take x.data.length) x.data).map
              Prod.snd, c.dty, c.dev⟩) := by
  unfold lstmGate at h
  split at h
  · rename_i hcond
    refine ⟨hcond.1, hcond.2.1, hcond.2.2.1, hcond.2.2.2, ?_⟩
    injection h with h
    exact h.symm
  · simp at h

theorem lstmGate_ok_of {sig th : α → α} {c x : Tensor α}
    (h1 : x.data.length ≤ c.data.length) (h2 : c.dev = x.dev)
    (h3 : ∀ r ∈ c.data, r.length = c.cols) (h4 : ∀ r ∈ x.data, r.length = 4 * c.cols) :
    lstmGate sig th c x =
      .ok (⟨(List.zipWith (gateRow sig th c.cols) (c.data.take x.data.length) x.data).map
              Prod.fst, c.dty, c.dev⟩,
           ⟨(List.zipWith (gateRow sig th c.cols) (c.data.take x.data.length) x.data).map
              Prod.snd, c.dty, c.dev⟩) := by
  unfold lstmGate
  rw [if_pos ⟨h1, h2, h3, h4⟩]

theorem lstmGate_shapes {sig th : α → α} {c x : Tensor α} {p : Tensor α × Tensor α}
    (h : lstmGate sig th c x = .ok p) :
    p.1.data.length = x.data.length ∧ p.2.data.length = x.data.length ∧
      (∀ r ∈ p.1.data, r.length = c.cols) ∧ (∀ r ∈ p.2.data, r.length = c.cols) ∧
      p.1.dev = c.dev ∧ p.2.dev = c.dev ∧ p.1.dty = c.dty ∧ p.2.dty = c.dty := by
  obtain ⟨hle, hdev, hrect, hw, hp⟩ := lstmGate_ok h
  have hlen : (List.zipWith (gateRow sig th c.cols) (c.data.take x.data.length) x.data).length
      = x.data.length := by
    simp only [List.length_zipWith, List.length_take]
    omega
  have hwidth1 : ∀ r ∈ (List.zipWith (gateRow sig th c.cols)
      (c.data.take x.data.length) x.data).map Prod.fst, r.length = c.cols := by
    intro r hr
    rcases List.mem_map.mp hr with ⟨pr, hpr, he⟩
    rcases mem_zipWith hpr with ⟨crow, hcrow, xrow, hxrow, hpe⟩
    have hcl : crow.length = c.cols := hrect crow (List.take_subset _ _ hcrow)
    have hxl : xrow.length = 4 * c.cols := hw xrow hxrow
    rw [← he, hpe]
    exact (gateRow_lengths hcl hxl).1
  have hwidth2 : ∀ r ∈ (List.zipWith (gateRow sig th c.cols)
      (c.data.take x.data.length) x.data).map Prod.snd, r.length = c.cols := by
    intro r hr
    rcases List.mem_map.mp hr with ⟨pr, hpr, he⟩
    rcases mem_zipWith hpr with ⟨crow, hcrow, xrow, hxrow, hpe⟩
    have hcl : crow.length = c.cols := hrect crow (List.take_subset _ _ hcrow)
    have hxl : xrow.length = 4 * c.cols := hw xrow hxrow
    rw [← he, hpe]
    exact (gateRow_lengths hcl hxl).2
  rw [hp]
  refine ⟨?_, ?_, hwidth1, hwidth2, rfl, rfl, rfl, rfl⟩
  · simpa using hlen
  · simpa using hlen

/-- The gate primitive only looks at the first `batch` rows of the cell:
restricting the cell to those rows beforehand gives the same result. -/
theorem lstmGate_take {sig th : α → α} {c x : Tensor α} {p : Tensor α × Tensor α}
    (h : lstmGate sig th c x = .ok p) :
    lstmGate sig th (takeRows x.data.length c) x = .ok p := by
  obtain ⟨hle, hdev, hrect, hw, hp⟩ := lstmGate_ok h
  by_cases hb : x.data.length = 0
  · have hxnil : x.data = [] := List.length_eq_zero.mp hb
    have hpz : p = (⟨[], c.dty, c.dev⟩, ⟨[], c.dty, c.dev⟩) := by
      rw [hp, hxnil]; simp
    rw [hpz]
    unfold lstmGate
    rw [if_pos]
    · simp [takeRows, hxnil, hb]
    · refine ⟨by simp [takeRows, hb], hdev, ?_, ?_⟩
      · intro r hr
        simp [takeRows, hb] at hr
      · intro r hr
        rw [hxnil] at hr
        simp at hr
  · have hcols : (takeRows x.data.length c).cols = c.cols := by
      simp only [takeRows, Tensor.cols, headWidth, List.head?_take, if_neg hb]
    have hsub : (takeRows x.data.length c).data ⊆ c.data := List.take_subset _ _
    have hres := @lstmGate_ok_of α _ _ sig th (takeRows x.data.length c) x
      (by simp only [takeRows, List.length_take]; omega)
      (by simpa [takeRows] using hdev)
      (by
        intro r hr
        rw [hcols]
        exact hrect r (hsub hr))
      (by
        intro r hr
        rw [hcols]
        exact hw r hr)
    rw [hres, hp]
    have htt : (takeRows x.data.length c).data.take x.data.length
        = c.data.take x.data.length := by
      simp [takeRows, List.take_take]
    rw [hcols, htt]
    rfl

theorem lateralStage_none {l : LSTM α} {u : Tensor α} {b : Nat} :
    lateralStage l none u b = .ok (u, none) := rfl

theorem lateralStage_ok {l : LSTM α} {hPrev u li : Tensor α} {b : Nat}
    {rest : Option (Tensor α)}
    (h : lateralStage l (some hPrev) u b = .ok (li, rest)) :
    ∃ latv, addT u latv = .ok li ∧
      ((b < hPrev.data.length ∧
          applyLin l.dev l.lateral (takeRows b hPrev) = .ok latv ∧
          rest = some (dropRows b hPrev)) ∨
       (hPrev.data.length ≤ b ∧ applyLin l.dev l.lateral hPrev = .ok latv ∧ rest = none)) := by
  simp only [lateralStage] at h
  split at h
  · rename_i hb
    split at h
    · simp at h
    · rename_i latv hl
      split at h
      · simp at h
      · rename_i t ha
        injection h with h
        injection h with h1 h2
        subst h1
        exact ⟨latv, ha, Or.inl ⟨hb, hl, h2.symm⟩⟩
  · rename_i hb
    simp only [lateralFull] at h
    split at h
    · simp at h
    · rename_i latv hl
      split at h
      · simp at h
      · rename_i t ha
        injection h with h
        injection h with h1 h2
        subst h1
        exact ⟨latv, ha, Or.inr ⟨by omega, hl, h2.symm⟩⟩

theorem lateralStage_err {l : LSTM α} {hPrev u : Tensor α} {b : Nat} {e : String}
    (h : lateralStage l (some hPrev) u b = .error e) :
    (b < hPrev.data.length ∧
      (applyLin l.dev l.lateral (takeRows b hPrev) = .error e ∨
       ∃ latv, applyLin l.dev l.lateral (takeRows b hPrev) = .ok latv ∧
         addT u latv = .error e)) ∨
    (hPrev.data.length ≤ b ∧
      (applyLin l.dev l.lateral hPrev = .error e ∨
       ∃ latv, applyLin l.dev l.lateral hPrev = .ok latv ∧ addT u latv = .error e)) := by
  simp only [lateralStage] at h
  split at h
  · rename_i hb
    split at h
    · rename_i e2 hl
      injection h with h
      subst h
      exact Or.inl ⟨hb, Or.inl hl⟩
    · rename_i latv hl
      split at h
      · rename_i e2 ha
        injection h with h
        subst h
        exact Or.inl ⟨hb, Or.inr ⟨latv, hl, ha⟩⟩
      · simp at h
  · rename_i hb
    simp only [lateralFull] at h
    split at h
    · rename_i e2 hl
      injection h with h
      subst h
      exact Or.inr ⟨by omega, Or.inl hl⟩
    · rename_i latv hl
      split at h
      · rename_i e2 ha
        injection h with h
        subst h
        exact Or.inr ⟨by omega, Or.inr ⟨latv, hl, ha⟩⟩
      · simp at h

theorem afterLateral_ok {sig th : α → α} {l : LSTM α} {s : LSTMState α}
    {x li out : Tensor α} {hRest : Option (Tensor α)} {s' : LSTMState α}
    (h : afterLateral sig th l s x li hRest = .ok s' out) :
    ∃ c1 h1, lstmGate sig th (c0val l s x) li = .ok (c1, h1) ∧
      ((hRest = none ∧ s' = ⟨some c1, some h1⟩ ∧ out = h1) ∨
       (∃ hr, hRest = some hr ∧ concatT h1 hr = .ok out ∧ s' = ⟨some c1, some out⟩)) := by
  unfold afterLateral at h
  split at h
  · simp at h
  · rename_i c1 h1 hg
    cases hRest with
    | none =>
      injection h with h1e h2e
      exact ⟨c1, h1, hg, Or.inl ⟨rfl, h1e.symm, h2e.symm⟩⟩
    | some hr =>
      simp only at h
      split at h
      · simp at h
      · rename_i hFull hcat
        injection h with h1e h2e
        subst h2e
        exact ⟨c1, h1, hg, Or.inr ⟨hr, rfl, hcat, h1e.symm⟩⟩

theorem afterLateral_err {sig th : α → α} {l : LSTM α} {s : LSTMState α}
    {x li : Tensor α} {hRest : Option (Tensor α)} {s' : LSTMState α} {e : String}
    (h : afterLateral sig th l s x li hRest = .err s' e) :
    (lstmGate sig th (c0val l s x) li = .error e ∧ s' = ⟨some (c0val l s x), s.h⟩) ∨
    (∃ c1 h1 hr, lstmGate sig th (c0val l s x) li = .ok (c1, h1) ∧ hRest = some hr ∧
      concatT h1 hr = .error e ∧ s' = ⟨some c1, s.h⟩) := by
  unfold afterLateral at h
  split at h
  · rename_i e2 hg
    injection h with h1e h2e
    subst h2e
    exact Or.inl ⟨hg, h1e.symm⟩
  · rename_i c1 h1 hg
    cases hRest with
    | none => simp at h
    | some hr =>
      simp only at h
      split at h
      · rename_i e2 hcat
        injection h with h1e h2e
        subst h2e
        exact Or.inr ⟨c1, h1, hr, hg, rfl, hcat, h1e.symm⟩
      · simp at h

theorem step_ok_elim {sig th : α → α} {l : LSTM α} {s : LSTMState α}
    {x out : Tensor α} {s' : LSTMState α}
    (h : step sig th l s x = .ok s' out) :
    ∃ u li hRest, applyLin l.dev l.upward x = .ok u ∧
      lateralStage l s.h u x.data.length = .ok (li, hRest) ∧
      afterLateral sig th l s x li hRest = .ok s' out := by
  unfold step at h
  split at h
  · simp at h
  · rename_i u hu
    split at h
    · simp at h
    · rename_i p hls
      exact ⟨u, p.1, p.2, hu, by rw [hls], h⟩

theorem step_err_elim {sig th : α → α} {l : LSTM α} {s : LSTMState α}
    {x : Tensor α} {s' : LSTMState α} {e : String}
    (h : step sig th l s x = .err s' e) :
    (s' = s ∧
      (applyLin l.dev l.upward x = .error e ∨
       ∃ u, applyLin l.dev l.upward x = .ok u ∧
         lateralStage l s.h u x.data.length = .error e)) ∨
    (∃ u li hRest, applyLin l.dev l.upward x = .ok u ∧
      lateralStage l s.h u x.data.length = .ok (li, hRest) ∧
      afterLateral sig th l s x li hRest = .err s' e) := by
  unfold step at h
  split at h
  · rename_i e2 hu
    injection h with h1e h2e
    subst h2e
    exact Or.inl ⟨h1e.symm, Or.inl hu⟩
  · rename_i u hu
    split at h
    · rename_i e2 hls
      injection h with h1e h2e
      subst h2e
      exact Or.inl ⟨h1e.symm, Or.inr ⟨u, hu, hls⟩⟩
    · rename_i p hls
      exact Or.inr ⟨u, p.1, p.2, hu, by rw [hls], h⟩

/-- Every successful step commits both state fields, and the stored
output is the returned output. -/
theorem step_ok_set {sig th : α → α} {l : LSTM α} {s : LSTMState α}
    {x out : Tensor α} {s' : LSTMState α}
    (h : step sig th l s x = .ok s' out) :
    ∃ cNew, s' = ⟨some cNew, some out⟩ := by
  obtain ⟨u, li, hRest, hu, hls, ha⟩ := step_ok_elim h
  obtain ⟨c1, h1, hg, hcase⟩ := afterLateral_ok ha
  rcases hcase with ⟨_, hs, hout⟩ | ⟨hr, _, _, hs⟩
  · exact ⟨c1, by rw [hs, hout]⟩
  · exact ⟨c1, hs⟩

/-- For a well-formed link, a successful upward projection followed by a
successful lateral stage yields a pre-activation whose row count equals
the input batch, whose rows have width `4 * out_size`, and which lives
on the link's device. -/
theorem li_facts {l : LSTM α} {hOpt : Option (Tensor α)} {u li x : Tensor α}
    {hRest : Option (Tensor α)}
    (hWf : l.Wf) (hu : applyLin l.dev l.upward x = .ok u)
    (hls : lateralStage l hOpt u x.data.length = .ok (li, hRest)) :
    li.data.length = x.data.length ∧ (∀ r ∈ li.data, r.length = 4 * l.state_size) ∧
      li.dev = l.dev := by
  obtain ⟨hxdev, hxw, hue⟩ := applyLin_ok hu
  have hurows : u.data.length = x.data.length := by rw [hue]; simp
  have huw : ∀ r ∈ u.data, r.length = 4 * l.state_size := by
    rw [hue]
    intro r hr
    rcases List.mem_map.mp hr with ⟨r2, _, he⟩
    rw [← he]
    exact linRow_length_wf_upward hWf r2
  have hudev : u.dev = l.dev := by rw [hue]; exact hxdev
  cases hOpt with
  | none =>
    rw [lateralStage_none] at hls
    injection hls with hls
    injection hls with h1 h2
    subst h1
    exact ⟨hurows, huw, hudev⟩
  | some hPrev =>
    obtain ⟨latv, hadd, hcase⟩ := lateralStage_ok hls
    obtain ⟨hdev2, hmap, hte⟩ := addT_ok hadd
    have hmaplen : li.data.map List.length = u.data.map List.length := by
      rw [hte]
      exact zipWith_zipWith_map_length _ _ hmap
    refine ⟨?_, widths_of_map_length_eq hmaplen huw, ?_⟩
    · rw [length_of_map_length_eq hmaplen, hurows]
    · rw [hte]
      exact hudev

/-- When the stored cell is null, the zero cell the code allocates
always fits the pre-activation, so the gate primitive cannot fail. -/
theorem gate_ok_of_cnone {sig th : α → α} {l : LSTM α} {s : LSTMState α}
    {x u li : Tensor α} {hRest : Option (Tensor α)}
    (hWf : l.Wf) (hc : s.c = none)
    (hu : applyLin l.dev l.upward x = .ok u)
    (hls : lateralStage l s.h u x.data.length = .ok (li, hRest)) :
    ∃ p, lstmGate sig th (c0val l s x) li = .ok p := by
  obtain ⟨hrows, hw, hdev⟩ := li_facts hWf hu hls
  have hc0 : c0val l s x = initC l x := by simp [c0val, hc]
  rw [hc0]
  refine ⟨_, lstmGate_ok_of ?_ ?_ ?_ ?_⟩
  · simp only [initC, List.length_replicate]
    omega
  · simp only [initC, hdev]
  · intro r hr
    cases hbx : x.data.length with
    | zero =>
      simp [initC, hbx] at hr
    | succ n =>
      simp only [initC, hbx] at hr ⊢
      have hre := List.eq_of_mem_replicate hr
      subst hre
      simp [Tensor.cols, headWidth, List.replicate_succ]
  · intro r hr
    cases hbx : x.data.length with
    | zero =>
      have : li.data = [] := List.length_eq_zero.mp (by rw [hrows, hbx])
      rw [this] at hr
      simp at hr
    | succ n =>
      simp only [initC, hbx]
      have : (⟨List.replicate (n + 1) (List.replicate l.state_size (0 : α)), x.dty,
          l.dev⟩ : Tensor α).cols = l.state_size := by
        simp [Tensor.cols, headWidth, List.replicate_succ]
      rw [this]
      exact hw r hr

/-- Concatenation succeeds whenever the two pieces agree on a common
row width and on the device. -/
theorem concatT_ok_of {a b : Tensor α} {n : Nat} (hdev : a.dev = b.dev)
    (ha : ∀ r ∈ a.data, r.length = n) (hb : ∀ r ∈ b.data, r.length = n) :
    concatT a b = .ok ⟨a.data ++ b.data, a.dty, a.dev⟩ := by
  have hall : ∀ r ∈ a.data ++ b.data, r.length = n := by
    intro r hr
    rcases List.mem_append.mp hr with hh | hh
    · exact ha r hh
    · exact hb r hh
  have hcond : a.dev = b.dev ∧
      ∀ r ∈ a.data ++ b.data, r.length = headWidth (a.data ++ b.data) := by
    refine ⟨hdev, ?_⟩
    intro r hr
    rw [hall r hr]
    cases hm : a.data ++ b.data with
    | nil => rw [hm] at hr; simp at hr
    | cons rr rs =>
      have h1 : rr.length = n := hall rr (by rw [hm]; exact List.mem_cons_self rr rs)
      simp [headWidth, h1]
  unfold concatT
  rw [if_pos hcond]

/-- For a well-formed link and a well-formed state, the fresh gate
output is rectangular with width `out_size`, lives on the link's
device, and has one row per input row. -/
theorem gate_out_widths {sig th : α → α} {l : LSTM α} {s : LSTMState α}
    {x u li c1 h1 : Tensor α} {hRest : Option (Tensor α)}
    (hWf : l.Wf) (hsw : StateWf l s)
    (hu : applyLin l.dev l.upward x = .ok u)
    (hls : lateralStage l s.h u x.data.length = .ok (li, hRest))
    (hg : lstmGate sig th (c0val l s x) li = .ok (c1, h1)) :
    (∀ r ∈ h1.data, r.length = l.state_size) ∧ h1.dev = l.dev ∧
      h1.data.length = x.data.length := by
  obtain ⟨hrows, hw, hdev⟩ := li_facts hWf hu hls
  obtain ⟨hgle, hgdev, hgrect, hgw, hgp⟩ := lstmGate_ok hg
  obtain ⟨_, h1rows, _, h1w, _, h1dev, _, _⟩ := lstmGate_shapes hg
  refine ⟨?_, by rw [h1dev, hgdev, hdev], by rw [h1rows, hrows]⟩
  cases hcs : s.c with
  | none =>
    have hc0 : c0val l s x = initC l x := by simp [c0val, hcs]
    cases hbx : x.data.length with
    | zero =>
      have hnil : h1.data = [] := by
        refine List.length_eq_zero.mp ?_
        rw [h1rows, hrows, hbx]
      rw [hnil]
      intro r hr
      simp at hr
    | succ n =>
      intro r hr
      have := h1w r hr
      rw [this, hc0]
      simp [initC, Tensor.cols, headWidth, hbx, List.replicate_succ]
  | some cv =>
    have hc0 : c0val l s x = cv := by simp [c0val, hcs]
    cases hcv : cv.data with
    | nil =>
      have hbx : x.data.length = 0 := by
        rw [hc0, hcv] at hgle
        simp only [List.length_nil, Nat.le_zero] at hgle
        rw [← hrows, hgle]
      have hnil : h1.data = [] := by
        refine List.length_eq_zero.mp ?_
        rw [h1rows, hrows, hbx]
      rw [hnil]
      intro r hr
      simp at hr
    | cons rr rs =>
      have hrr : rr.length = l.state_size :=
        hsw.1 cv hcs rr (by rw [hcv]; exact List.mem_cons_self rr rs)
      intro r hr
      have := h1w r hr
      rw [this, hc0]
      simp [Tensor.cols, headWidth, hcv, hrr]

/-- C4: every step call is atomic with respect to failure: any failing
step leaves both state fields at their pre-call values, and any
successful step commits both fields, storing the returned output. -/
theorem c4_step_atomic_on_failure {sig th : α → α} {l : LSTM α} {s : LSTMState α}
    {x : Tensor α} (hWf : l.Wf) (hsw : StateWf l s) :
    (∀ s' e, step sig th l s x = .err s' e → s' = s) ∧
    (∀ s' out, step sig th l s x = .ok s' out → ∃ cNew, s' = ⟨some cNew, some out⟩) := by
  constructor
  · intro s' e he
    rcases step_err_elim he with ⟨hs, _⟩ | ⟨u, li, hRest, hu, hls, haf⟩
    · exact hs
    rcases afterLateral_err haf with ⟨hg, hs1⟩ | ⟨c1, h1, hr, hg, hre, hcat, hs2⟩
    · cases hcs : s.c with
      | some cv =>
        have hc0 : c0val l s x = cv := by simp [c0val, hcs]
        rw [hs1, hc0]
        cases s with
        | mk c hopt =>
          simp only at hcs
          rw [hcs]
      | none =>
        obtain ⟨p, hp⟩ := gate_ok_of_cnone hWf hcs hu hls
        rw [hp] at hg
        simp at hg
    · cases hsh : s.h with
      | none =>
        rw [hsh] at hls
        rw [lateralStage_none] at hls
        injection hls with hls
        injection hls with h1e h2e
        rw [← h2e] at hre
        simp at hre
      | some hp =>
        rw [hsh] at hls
        obtain ⟨latv, hadd, hcase⟩ := lateralStage_ok hls
        rcases hcase with ⟨hblt, hlat, hrs⟩ | ⟨hble, hlat, hrs⟩
        · have hhr : hr = dropRows x.data.length hp := by
            rw [hrs] at hre
            injection hre with hre
            exact hre.symm
          obtain ⟨hldev, hlw, hlate⟩ := applyLin_ok hlat
          have hpdev : hp.dev = l.dev := hldev
          obtain ⟨h1S, h1dev, h1rows⟩ :=
            gate_out_widths hWf hsw hu (by rw [hsh]; exact hls) hg
          have hS_hr : ∀ r ∈ hr.data, r.length = l.state_size := by
            rw [hhr]
            intro r hrm
            exact hsw.2 hp hsh r (List.drop_subset _ _ hrm)
          have hdev_eq : h1.dev = hr.dev := by
            rw [h1dev, hhr]
            exact hpdev.symm
          have hok := concatT_ok_of hdev_eq h1S hS_hr
          rw [hok] at hcat
          simp at hcat
        · rw [hrs] at hre
          simp at hre
  · intro s' out hok
    exact step_ok_set hok

/-- C6: outside a single step execution the two state fields are both
null or both non-null: construction and reset yield the both-null
state, reset is the identity there, every successful step ends with
both fields set, and under any sequence of operations only these two
shapes of state are reachable. -/
theorem c6_state_machine (sig th : α → α) (l : LSTM α) (hWf : l.Wf) :
    (∀ s, Reachable sig th l s →
      (s.c = none ∧ s.h = none) ∨ (s.c.isSome ∧ s.h.isSome)) ∧
    ((initialState : LSTMState α).c = none ∧ (initialState : LSTMState α).h = none) ∧
    (∀ in_size out_size (Wu : List (List α)) bu Wl dv,
      (createLSTM in_size out_size Wu bu Wl dv).2 = initialState) ∧
    (∀ s : LSTMState α, (resetStateOp s).c = none ∧ (resetStateOp s).h = none) ∧
    (∀ s : LSTMState α, s.c = none → s.h = none → resetStateOp s = s) ∧
    (∀ s s' x out, step sig th l s x = .ok s' out → s'.c.isSome ∧ s'.h.isSome) := by
  refine ⟨?_, ⟨rfl, rfl⟩, fun _ _ _ _ _ _ => rfl, fun s => ⟨rfl, rfl⟩, ?_, ?_⟩
  · intro s hs
    induction hs with
    | init => exact Or.inl ⟨rfl, rfl⟩
    | reset _ _ => exact Or.inl ⟨rfl, rfl⟩
    | stepOk _ hstep ih =>
      obtain ⟨cNew, hsp⟩ := step_ok_set hstep
      right
      rw [hsp]
      exact ⟨rfl, rfl⟩
    | stepErr _ hstep ih =>
      rcases step_err_elim hstep with ⟨hs', _⟩ | ⟨u, li, hRest, hu, hls, haf⟩
      · rw [hs']
        exact ih
      rcases afterLateral_err haf with ⟨hg, hs1⟩ | ⟨c1, h1, hr, hg, hre2, hcat, hs2⟩
      · rcases ih with ⟨hc, hh⟩ | ⟨hc, hh⟩
        · obtain ⟨p, hp⟩ := gate_ok_of_cnone hWf hc hu hls
          rw [hp] at hg
          simp at hg
        · right
          rw [hs1]
          exact ⟨rfl, hh⟩
      · rcases ih with ⟨hc, hh⟩ | ⟨hc, hh⟩
        · rw [hh] at hls
          rw [lateralStage_none] at hls
          injection hls with hls
          injection hls with h1e h2e
          rw [← h2e] at hre2
          simp at hre2
        · right
          rw [hs2]
          exact ⟨rfl, hh⟩
  · intro s hc hh
    cases s with
    | mk c hopt =>
      simp only at hc hh
      rw [resetStateOp, hc, hh]
  · intro s s' x out hstep
    obtain ⟨cNew, hsp⟩ := step_ok_set hstep
    rw [hsp]
    exact ⟨rfl, rfl⟩

/-- Witness for C6 at the concrete demo link. -/
theorem c6_state_machine_witness :
    (∀ s, Reachable demoId demoId demoLink s →
      (s.c = none ∧ s.h = none) ∨ (s.c.isSome ∧ s.h.isSome)) ∧
    ((initialState : LSTMState Int).c = none ∧ (initialState : LSTMState Int).h = none) ∧
    (∀ in_size out_size (Wu : List (List Int)) bu Wl dv,
      (createLSTM in_size out_size Wu bu Wl dv).2 = initialState) ∧
    (∀ s : LSTMState Int, (resetStateOp s).c = none ∧ (resetStateOp s).h = none) ∧
    (∀ s : LSTMState Int, s.c = none → s.h = none → resetStateOp s = s) ∧
    (∀ s s' x out, step demoId demoId demoLink s x = .ok s' out →
      s'.c.isSome ∧ s'.h.isSome) :=
  c6_state_machine demoId demoId demoLink ⟨rfl, rfl, rfl, rfl⟩

theorem concatT_ok_elim {a b t : Tensor α} (h : concatT a b = .ok t) :
    t = ⟨a.data ++ b.data, a.dty, a.dev⟩ := by
  unfold concatT at h
  split at h
  · injection h with h
    exact h.symm
  · simp at h

/-- Reassembling a step result from its successful stages. -/
theorem step_eq_of_stages {sig th : α → α} {l : LSTM α} {s s' : LSTMState α}
    {x out u li : Tensor α} {hRest : Option (Tensor α)}
    (hu : applyLin l.dev l.upward x = .ok u)
    (hls : lateralStage l s.h u x.data.length = .ok (li, hRest))
    (ha : afterLateral sig th l s x li hRest = .ok s' out) :
    step sig th l s x = .ok s' out := by
  unfold step
  simp only [hu, hls]
  exact ha

theorem afterLateral_none_ok {sig th : α → α} {l : LSTM α} {s : LSTMState α}
    {x li c1 h1 : Tensor α}
    (hg : lstmGate sig th (c0val l s x) li = .ok (c1, h1)) :
    afterLateral sig th l s x li none = .ok ⟨some c1, some h1⟩ h1 := by
  unfold afterLateral
  simp only [hg]

theorem afterLateral_some_ok {sig th : α → α} {l : LSTM α} {s : LSTMState α}
    {x li c1 h1 hr hFull : Tensor α}
    (hg : lstmGate sig th (c0val l s x) li = .ok (c1, h1))
    (hcat : concatT h1 hr = .ok hFull) :
    afterLateral sig th l s x li (some hr) = .ok ⟨some c1, some hFull⟩ hFull := by
  unfold afterLateral
  simp only [hg, hcat]

/-- Full inversion of a successful step from a state whose output field
is set: the stages that must have run, the shapes of the intermediate
tensors, and the two batch-policy branches. -/
theorem step_ok_someh {sig th : α → α} {l : LSTM α} {s s' : LSTMState α}
    {x out hv : Tensor α}
    (hh : s.h = some hv) (hstep : step sig th l s x = .ok s' out) :
    ∃ u latv li c1 h1,
      applyLin l.dev l.upward x = .ok u ∧
      addT u latv = .ok li ∧
      lstmGate sig th (c0val l s x) li = .ok (c1, h1) ∧
      li.data.length = x.data.length ∧
      h1.data.length = x.data.length ∧
      s' = ⟨some c1, some out⟩ ∧
      ((hv.data.length = x.data.length ∧
          applyLin l.dev l.lateral hv = .ok latv ∧ out = h1) ∨
       (x.data.length < hv.data.length ∧
          applyLin l.dev l.lateral (takeRows x.data.length hv) = .ok latv ∧
          out = ⟨h1.data ++ hv.data.drop x.data.length, h1.dty, h1.dev⟩)) := by
  obtain ⟨u, li, hRest, hu, hls, ha⟩ := step_ok_elim hstep
  rw [hh] at hls
  obtain ⟨latv, hadd, hcase⟩ := lateralStage_ok hls
  obtain ⟨c1, h1, hg, hacase⟩ := afterLateral_ok ha
  have hurows : u.data.length = x.data.length := by
    rw [(applyLin_ok hu).2.2]
    simp
  have hmap := (addT_ok hadd).2.1
  have hlirows : li.data.length = x.data.length := by
    have h3 := (addT_ok hadd).2.2
    have h4 : li.data.map List.length = u.data.map List.length := by
      rw [h3]
      exact zipWith_zipWith_map_length _ _ hmap
    rw [length_of_map_length_eq h4, hurows]
  have hulatv : u.data.length = latv.data.length := length_of_map_length_eq hmap
  have h1rows : h1.data.length = x.data.length := by
    have := (lstmGate_shapes hg).2.1
    simp only at this
    rw [this, hlirows]
  rcases hcase with ⟨hblt, hlat, hrs⟩ | ⟨hble, hlat, hrs⟩
  · subst hrs
    rcases hacase with ⟨hnone, _, _⟩ | ⟨hr, hre, hcat, hs⟩
    · simp at hnone
    · injection hre with hre
      subst hre
      have hte := concatT_ok_elim hcat
      refine ⟨u, latv, li, c1, h1, hu, hadd, hg, hlirows, h1rows, hs, Or.inr ⟨hblt, hlat, ?_⟩⟩
      rw [hte]
      rfl
  · subst hrs
    rcases hacase with ⟨_, hs, ho⟩ | ⟨hr, hre, _, _⟩
    · have hlatvrows : latv.data.length = hv.data.length := by
        rw [(applyLin_ok hlat).2.2]
        simp
      have hB : hv.data.length = x.data.length := by omega
      subst ho
      exact ⟨u, latv, li, c1, out, hu, hadd, hg, hlirows, h1rows, hs, Or.inl ⟨hB, hlat, rfl⟩⟩
    · simp at hre

/-- A step from a state whose output field is set never changes an
output row at an index at or beyond the current batch. -/
theorem step_ok_frozen {sig th : α → α} {l : LSTM α} {s s' : LSTMState α}
    {x out hv : Tensor α}
    (hh : s.h = some hv) (hstep : step sig th l s x = .ok s' out) :
    ∀ j, x.data.length ≤ j → out.data[j]? = hv.data[j]? := by
  obtain ⟨u, latv, li, c1, h1, hu, hadd, hg, hlirows, h1rows, hs, hbr⟩ :=
    step_ok_someh hh hstep
  intro j hj
  rcases hbr with ⟨hB, hlat, ho⟩ | ⟨hB, hlat, ho⟩
  · subst ho
    rw [List.getElem?_eq_none (by omega), List.getElem?_eq_none (by omega)]
  · subst ho
    simp only
    rw [List.getElem?_append]
    rw [if_neg (by omega), h1rows, List.getElem?_drop]
    congr 1
    omega

/-- C1: on a shrinking batch (previous output larger than the input
batch), the first `batch` rows of the returned output are the gate
primitive applied to the first `batch` rows of the stored cell and to
`upward(x) + lateral(first batch rows of the stored output)`, the
remaining rows are the corresponding rows of the previous output
unchanged, and the output is the fresh rows concatenated with the
carried tail, restoring the previous larger batch size. -/
theorem c1_shrinking_batch (sig th : α → α) (l : LSTM α) :
    ∀ (s s' : LSTMState α) (x out cv hv : Tensor α),
      s.c = some cv → s.h = some hv →
      x.data.length < hv.data.length →
      step sig th l s x = .ok s' out →
      ∃ u latv li c1 h1,
        applyLin l.dev l.upward x = .ok u ∧
        applyLin l.dev l.lateral (takeRows x.data.length hv) = .ok latv ∧
        addT u latv = .ok li ∧
        lstmGate sig th (takeRows x.data.length cv) li = .ok (c1, h1) ∧
        h1.data.length = x.data.length ∧
        out.data.take x.data.length = h1.data ∧
        out.data.drop x.data.length = hv.data.drop x.data.length ∧
        out.data = h1.data ++ hv.data.drop x.data.length ∧
        s' = ⟨some c1, some out⟩ := by
  intro s s' x out cv hv hc hh hlt hstep
  obtain ⟨u, latv, li, c1, h1, hu, hadd, hg, hlirows, h1rows, hs, hbr⟩ :=
    step_ok_someh hh hstep
  rcases hbr with ⟨hB, _, _⟩ | ⟨_, hlat, ho⟩
  · omega
  · have hc0 : c0val l s x = cv := by simp [c0val, hc]
    rw [hc0] at hg
    have hgtake := lstmGate_take hg
    rw [hlirows] at hgtake
    refine ⟨u, latv, li, c1, h1, hu, hlat, hadd, hgtake, h1rows, ?_, ?_, ?_, hs⟩
    · subst ho
      simp only
      rw [← h1rows, List.take_left]
    · subst ho
      simp only
      rw [← h1rows, List.drop_left]
    · subst ho
      rfl

/-- C2: on an equal batch (previous output's leading dimension equal to
the input batch), the result is the gate primitive applied to the
stored cell and `upward(x) + lateral(stored output)`, the new cell is
stored, and the new output is stored and returned. -/
theorem c2_equal_batch (sig th : α → α) (l : LSTM α) :
    ∀ (s s' : LSTMState α) (x out cv hv : Tensor α),
      s.c = some cv → s.h = some hv →
      hv.data.length = x.data.length →
      step sig th l s x = .ok s' out →
      ∃ u latv li c1,
        applyLin l.dev l.upward x = .ok u ∧
        applyLin l.dev l.lateral hv = .ok latv ∧
        addT u latv = .ok li ∧
        lstmGate sig th cv li = .ok (c1, out) ∧
        s' = ⟨some c1, some out⟩ := by
  intro s s' x out cv hv hc hh heq hstep
  obtain ⟨u, latv, li, c1, h1, hu, hadd, hg, hlirows, h1rows, hs, hbr⟩ :=
    step_ok_someh hh hstep
  rcases hbr with ⟨hB, hlat, ho⟩ | ⟨hB, _, _⟩
  · have hc0 : c0val l s x = cv := by simp [c0val, hc]
    rw [hc0] at hg
    subst ho
    exact ⟨u, latv, li, c1, hu, hlat, hadd, hg, hs⟩
  · omega

/-- C3: the very first step on a freshly constructed or freshly reset
cell (both fields null) returns exactly the gate primitive applied to a
zero cell of shape `(batch, out_size)` and `upward(x)` alone, with no
lateral contribution. -/
theorem c3_first_step_no_lateral (sig th : α → α) (l : LSTM α) :
    (∀ s0 : LSTMState α, resetStateOp s0 = initialState) ∧
    (∀ (x : Tensor α) (s' : LSTMState α) out,
      step sig th l initialState x = .ok s' out →
      ∃ u c1, applyLin l.dev l.upward x = .ok u ∧
        lstmGate sig th (initC l x) u = .ok (c1, out) ∧
        s' = ⟨some c1, some out⟩ ∧
        (initC l x).data =
          List.replicate x.data.length (List.replicate l.state_size 0)) := by
  refine ⟨fun _ => rfl, ?_⟩
  intro x s' out hstep
  obtain ⟨u, li, hRest, hu, hls, ha⟩ := step_ok_elim hstep
  have hnone : (initialState : LSTMState α).h = none := rfl
  rw [hnone, lateralStage_none] at hls
  injection hls with hls
  injection hls with h1e h2e
  subst h1e
  subst h2e
  obtain ⟨c1, h1, hg, hacase⟩ := afterLateral_ok ha
  rcases hacase with ⟨_, hs, ho⟩ | ⟨hr, hre, _, _⟩
  · subst ho
    have hc0 : c0val l initialState x = initC l x := rfl
    rw [hc0] at hg
    exact ⟨u, c1, hu, hg, hs, rfl⟩
  · simp at hre

/-- C5: when the stored cell is null, the cell handed to the gate is a
zero tensor of shape `(batch, out_size)` with the input's dtype on the
input's device, and running the step from that explicitly-initialized
cell gives the same successful result. -/
theorem c5_cell_init_zeros (sig th : α → α) (l : LSTM α) :
    ∀ (s s' : LSTMState α) (x out : Tensor α),
      s.c = none → step sig th l s x = .ok s' out →
      step sig th l ⟨some (initC l x), s.h⟩ x = .ok s' out ∧
      (initC l x).data =
        List.replicate x.data.length (List.replicate l.state_size 0) ∧
      (initC l x).dty = x.dty ∧ (initC l x).dev = x.dev := by
  intro s s' x out hc hstep
  obtain ⟨u, li, hRest, hu, hls, ha⟩ := step_ok_elim hstep
  have hxdev : x.dev = l.dev := (applyLin_ok hu).1
  refine ⟨?_, rfl, rfl, by simp [initC, hxdev]⟩
  obtain ⟨c1, h1, hg, hacase⟩ := afterLateral_ok ha
  have hc0 : c0val l s x = initC l x := by simp [c0val, hc]
  rw [hc0] at hg
  have hls2 : lateralStage l (LSTMState.mk (some (initC l x)) s.h).h u x.data.length
      = .ok (li, hRest) := hls
  apply step_eq_of_stages hu hls2
  rcases hacase with ⟨hn, hs, ho⟩ | ⟨hr, hre, hcat, hs⟩
  · subst hn
    subst ho
    rw [hs]
    exact afterLateral_none_ok hg
  · subst hre
    rw [hs]
    exact afterLateral_some_ok hg hcat

/-- C7: with fixed projection weights and fixed inputs, two runs of the
same step sequence from a freshly reset cell produce identical results
at every step (the step transition is deterministic). -/
theorem c7_determinism (sig th : α → α) (l1 l2 : LSTM α) (hl : l1 = l2)
    (xs : List (Tensor α)) :
    run sig th l1 initialState xs = run sig th l2 initialState xs := by
  rw [hl]

/-- C8: after a successful step whose batch is strictly smaller than
the previous output's leading dimension, the stored cell has the new
small batch as leading dimension while the stored output keeps the old
larger one. -/
theorem c8_state_dims_diverge (sig th : α → α) (l : LSTM α) :
    ∀ (s s' : LSTMState α) (x out hv : Tensor α),
      s.h = some hv → x.data.length < hv.data.length →
      step sig th l s x = .ok s' out →
      ∃ cNew, s' = ⟨some cNew, some out⟩ ∧
        cNew.data.length = x.data.length ∧
        out.data.length = hv.data.length := by
  intro s s' x out hv hh hlt hstep
  obtain ⟨u, latv, li, c1, h1, hu, hadd, hg, hlirows, h1rows, hs, hbr⟩ :=
    step_ok_someh hh hstep
  rcases hbr with ⟨hB, _, _⟩ | ⟨_, _, ho⟩
  · omega
  · have hc1rows : c1.data.length = x.data.length := by
      have hr1 := (lstmGate_shapes hg).1
      simp only at hr1
      rw [hr1, hlirows]
    refine ⟨c1, hs, hc1rows, ?_⟩
    subst ho
    simp only [List.length_append, List.length_drop, h1rows]
    omega

/-- C9: in a run with non-increasing batches, each output row below the
current batch is the freshly computed gate row, and each row at or
beyond the batch keeps, verbatim, its value from the last step whose
batch exceeded it — frozen rows persist across all later
smaller-batch steps. -/
theorem c9_frozen_outputs (sig th : α → α) (l : LSTM α) :
    (∀ (s s' : LSTMState α) (x out hv : Tensor α),
      s.h = some hv → step sig th l s x = .ok s' out →
      ∃ li c1 h1, lstmGate sig th (c0val l s x) li = .ok (c1, h1) ∧
        s'.h = some out ∧
        (∀ j, j < x.data.length → out.data[j]? = h1.data[j]?) ∧
        (∀ j, x.data.length ≤ j → out.data[j]? = hv.data[j]?)) ∧
    (∀ (j : Nat) (s sf : LSTMState α) (hv : Tensor α) (xs : List (Tensor α))
        (outs : List (Tensor α)),
      s.h = some hv →
      (∀ x ∈ xs, x.data.length ≤ j) →
      run sig th l s xs = (sf, outs) → outs.length = xs.length →
      ∀ hf, sf.h = some hf → hf.data[j]? = hv.data[j]?) := by
  constructor
  · intro s s' x out hv hh hstep
    obtain ⟨u, latv, li, c1, h1, hu, hadd, hg, hlirows, h1rows, hs, hbr⟩ :=
      step_ok_someh hh hstep
    refine ⟨li, c1, h1, hg, by rw [hs], ?_, step_ok_frozen hh hstep⟩
    intro j hj
    rcases hbr with ⟨hB, hlat, ho⟩ | ⟨hB, hlat, ho⟩
    · subst ho
      rfl
    · subst ho
      simp only
      rw [List.getElem?_append]
      rw [if_pos (by omega)]
  · intro j s sf hv xs outs
    induction xs generalizing s hv outs with
    | nil =>
      intro hh hball hrun hlen hf hsf
      unfold run at hrun
      injection hrun with h1e h2e
      subst h1e
      rw [hh] at hsf
      injection hsf with hsf
      rw [hsf]
    | cons x xs ih =>
      intro hh hball hrun hlen hf hsf
      unfold run at hrun
      split at hrun
      · rename_i s1 out1 hst
        injection hrun with h1e h2e
        subst h2e
        have hlen2 : (run sig th l s1 xs).2.length = xs.length := by
          simpa using hlen
        obtain ⟨cNew, hs1⟩ := step_ok_set hst
        have hs1h : s1.h = some out1 := by rw [hs1]
        have hfrozen := step_ok_frozen hh hst j
          (hball x (List.mem_cons_self x xs))
        have hrest := ih s1 out1 (run sig th l s1 xs).2 hs1h
          (fun x2 hx2 => hball x2 (List.mem_cons_of_mem _ hx2))
          (by rw [← h1e]) hlen2 hf hsf
        rw [hrest]
        exact hfrozen
      · rename_i s1 e hst
        injection hrun with h1e h2e
        rw [← h2e] at hlen
        simp at hlen

/-- C10: on a growing batch (previous output strictly smaller than the
input batch) the code performs no validation of its own: it takes the
same branch as the equal-batch case, adding the lateral projection of
the full stored output to the pre-activation, and any failure of the
step leaves both state fields at their pre-call values. -/
theorem c10_growing_batch_no_validation (sig th : α → α) (l : LSTM α) :
    ∀ (s : LSTMState α) (x hv : Tensor α),
      s.h = some hv → hv.data.length < x.data.length →
      (∀ u : Tensor α, lateralStage l s.h u x.data.length = lateralFull l hv u) ∧
      (∀ s' e, step sig th l s x = .err s' e → s' = s) := by
  intro s x hv hh hlt
  constructor
  · intro u
    rw [hh]
    simp only [lateralStage]
    rw [if_neg (by omega)]
  · intro s' e he
    rcases step_err_elim he with ⟨hs, _⟩ | ⟨u, li, hRest, hu, hls, haf⟩
    · exact hs
    · exfalso
      rw [hh] at hls
      obtain ⟨latv, hadd, hcase⟩ := lateralStage_ok hls
      have hurows : u.data.length = x.data.length := by
        rw [(applyLin_ok hu).2.2]
        simp
      have hul := length_of_map_length_eq (addT_ok hadd).2.1
      rcases hcase with ⟨hblt, _, _⟩ | ⟨hble, hlat, _⟩
      · omega
      · have hlatvrows : latv.data.length = hv.data.length := by
          rw [(applyLin_ok hlat).2.2]
          simp
        omega

/-- Witness for C1 at a concrete shrinking-batch step. -/
theorem c1_shrinking_batch_witness :
    ∃ u latv li c1 h1,
      applyLin demoLink.dev demoLink.upward demoX2 = .ok u ∧
      applyLin demoLink.dev demoLink.lateral (takeRows demoX2.data.length demoOut1) = .ok latv ∧
      addT u latv = .ok li ∧
      lstmGate demoId demoId (takeRows demoX2.data.length demoCell1) li = .ok (c1, h1) ∧
      h1.data.length = demoX2.data.length ∧
      demoOut2.data.take demoX2.data.length = h1.data ∧
      demoOut2.data.drop demoX2.data.length = demoOut1.data.drop demoX2.data.length ∧
      demoOut2.data = h1.data ++ demoOut1.data.drop demoX2.data.length ∧
      demoS2 = ⟨some c1, some demoOut2⟩ :=
  c1_shrinking_batch demoId demoId demoLink demoS1 demoS2 demoX2 demoOut2 demoCell1 demoOut1
    rfl rfl (by decide) (by decide)

/-- Witness for C2 at a concrete equal-batch step. -/
theorem c2_equal_batch_witness :
    ∃ u latv li c1,
      applyLin demoLink.dev demoLink.upward demoX1 = .ok u ∧
      applyLin demoLink.dev demoLink.lateral demoOut1 = .ok latv ∧
      addT u latv = .ok li ∧
      lstmGate demoId demoId demoCell1 li = .ok (c1, demoOut1e) ∧
      demoS1e = ⟨some c1, some demoOut1e⟩ :=
  c2_equal_batch demoId demoId demoLink demoS1 demoS1e demoX1 demoOut1e demoCell1 demoOut1
    rfl rfl (by decide) (by decide)

/-- Witness for C3 at a concrete first step. -/
theorem c3_first_step_no_lateral_witness :
    (∀ s0 : LSTMState Int, resetStateOp s0 = initialState) ∧
    (∃ u c1, applyLin demoLink.dev demoLink.upward demoX1 = .ok u ∧
      lstmGate demoId demoId (initC demoLink demoX1) u = .ok (c1, demoOut1) ∧
      demoS1 = ⟨some c1, some demoOut1⟩ ∧
      (initC demoLink demoX1).data =
        List.replicate demoX1.data.length (List.replicate demoLink.state_size 0)) :=
  ⟨(c3_first_step_no_lateral demoId demoId demoLink).1,
   (c3_first_step_no_lateral demoId demoId demoLink).2 demoX1 demoS1 demoOut1 (by decide)⟩

/-- Witness for C4 at a concrete well-formed link and state. -/
theorem c4_step_atomic_on_failure_witness :
    (∀ s' e, step demoId demoId demoLink demoS1 demoBadX = .err s' e → s' = demoS1) ∧
    (∀ s' out, step demoId demoId demoLink demoS1 demoBadX = .ok s' out →
      ∃ cNew, s' = ⟨some cNew, some out⟩) :=
  c4_step_atomic_on_failure ⟨rfl, rfl, rfl, rfl⟩
    ⟨fun t ht => by injection ht with ht; subst ht; decide,
     fun t ht => by injection ht with ht; subst ht; decide⟩

/-- Witness for C5 at a concrete null-cell step. -/
theorem c5_cell_init_zeros_witness :
    step demoId demoId demoLink ⟨some (initC demoLink demoX1),
        (initialState : LSTMState Int).h⟩ demoX1 = .ok demoS1 demoOut1 ∧
    (initC demoLink demoX1).data =
      List.replicate demoX1.data.length (List.replicate demoLink.state_size 0) ∧
    (initC demoLink demoX1).dty = demoX1.dty ∧ (initC demoLink demoX1).dev = demoX1.dev :=
  c5_cell_init_zeros demoId demoId demoLink initialState demoS1 demoX1 demoOut1 rfl (by decide)

/-- Witness for C7 at a concrete run. -/
theorem c7_determinism_witness :
    run demoId demoId demoLink initialState [demoX1, demoX2] =
      run demoId demoId demoLink initialState [demoX1, demoX2] :=
  c7_determinism demoId demoId demoLink demoLink rfl [demoX1, demoX2]

/-- Witness for C8 at a concrete shrinking-batch step. -/
theorem c8_state_dims_diverge_witness :
    ∃ cNew, demoS2 = ⟨some cNew, some demoOut2⟩ ∧
      cNew.data.length = demoX2.data.length ∧
      demoOut2.data.length = demoOut1.data.length :=
  c8_state_dims_diverge demoId demoId demoLink demoS1 demoS2 demoX2 demoOut2 demoOut1
    rfl (by decide) (by decide)

/-- Witness for C9 at a concrete shrinking-batch step and run. -/
theorem c9_frozen_outputs_witness :
    (∃ li c1 h1, lstmGate demoId demoId (c0val demoLink demoS1 demoX2) li = .ok (c1, h1) ∧
      demoS2.h = some demoOut2 ∧
      (∀ j, j < demoX2.data.length → demoOut2.data[j]? = h1.data[j]?) ∧
      (∀ j, demoX2.data.length ≤ j → demoOut2.data[j]? = demoOut1.data[j]?)) ∧
    demoOut2.data[1]? = demoOut1.data[1]? :=
  ⟨(c9_frozen_outputs demoId demoId demoLink).1 demoS1 demoS2 demoX2 demoOut2 demoOut1
      rfl (by decide),
   (c9_frozen_outputs demoId demoId demoLink).2 1 demoS1 demoS2 demoOut1 [demoX2] [demoOut2]
      rfl (by decide) (by decide) rfl demoOut2 rfl⟩

/-- Witness for C10 at a concrete growing-batch step. -/
theorem c10_growing_batch_no_validation_witness :
    (∀ u : Tensor Int, lateralStage demoLink demoT1.h u demoX3.data.length =
      lateralFull demoLink demoTOut u) ∧
    (∀ s' e, step demoId demoId demoLink demoT1 demoX3 = .err s' e → s' = demoT1) :=
  c10_growing_batch_no_validation demoId demoId demoLink demoT1 demoX3 demoTOut rfl (by decide)

end ChainerLSTM
